import Mathlib

/-!
Verification of the reassembly/fragmentation engine of the `unreliable`
messaging library (src/msgqueue.rs and src/network.rs).

The Rust code is shallowly embedded:
* `MsgId(u64)` is modelled as `Nat` (the queue logic only compares ids, so
  wrap-around of the 64-bit counter is unreachable for any realistic run).
* `PieceNum(u16, u16)` is modelled as a pair of `Nat` fields `index`/`total`.
* `Vec<u8>` payloads are modelled as `List Nat`.
* `std::collections::HashMap` is modelled as an association list.  Rust's
  `HashMap` iteration order is unspecified; this embedding realizes it as
  insertion order, one admissible order.  All queue-level operations except
  `MsgStage::merge` are insensitive to that choice: removal sets are decided
  by key comparisons and `prune` sorts the key set before use.  `merge` is
  the one function whose result depends on the iteration order.
* Mutation is modelled by explicit state passing; `insert_chunk` returns the
  `Option<CompleteMessage>` result together with the updated queue.
-/

/-- Association-list lookup, keyed on the first component (models
`HashMap::get` / `contains_key`). -/
def lookupKey {α : Type} (k : Nat) : List (Nat × α) → Option α
  | [] => none
  | p :: rest => if p.1 = k then some p.2 else lookupKey k rest

/-- Association-list removal of a key (models `HashMap::remove`; with unique
keys it removes exactly the one entry holding `k`). -/
def eraseKey {α : Type} (k : Nat) (l : List (Nat × α)) : List (Nat × α) :=
  l.filter (fun p => !(p.1 = k : Bool))

/-- Association-list in-place update of the value stored at a key (models
mutating through `HashMap::get_mut`). -/
def setKey {α : Type} (k : Nat) (v : α) (l : List (Nat × α)) : List (Nat × α) :=
  l.map (fun p => if p.1 = k then (k, v) else p)

/-- One wire fragment: `MsgChunk(MsgId, PieceNum(index, total), Vec<u8>)`
from src/msgqueue.rs lines 11-13. -/
structure MsgChunk where
  id : Nat
  index : Nat
  total : Nat
  payload : List Nat
deriving DecidableEq, Repr

/-- A reassembled message: `CompleteMessage(MsgId, Vec<u8>)` from
src/msgqueue.rs lines 15-17. -/
structure CompleteMessage where
  id : Nat
  payload : List Nat
deriving DecidableEq, Repr

/-- Per-message reassembly state: `MsgStage` from src/msgqueue.rs lines 19-24.
`pieces` is the `HashMap<usize, MsgChunk>` keyed by fragment index, realized
as an insertion-ordered association list. -/
structure MsgStage where
  this_id : Nat
  total_pieces : Nat
  pieces : List (Nat × MsgChunk)
  size : Nat
deriving DecidableEq, Repr

/-- Per-peer reassembly queue: `MsgQueue` from src/msgqueue.rs lines 26-31. -/
structure MsgQueue where
  last_released : Option Nat
  stages : List (Nat × MsgStage)
  max_size : Option Nat
  cur_size : Nat
deriving DecidableEq, Repr

/-- `MsgStage::add_chunk` (src/msgqueue.rs lines 141-149): if the fragment
index is not yet present, store the chunk and return the payload length that
was added to `size`; otherwise discard the chunk and return 0. -/
def MsgStage.add_chunk (s : MsgStage) (chunk : MsgChunk) : MsgStage × Nat :=
  match lookupKey chunk.index s.pieces with
  | some _ => (s, 0)
  | none =>
    ({ s with size := s.size + chunk.payload.length,
              pieces := s.pieces ++ [(chunk.index, chunk)] },
     chunk.payload.length)

/-- `MsgStage::new` (src/msgqueue.rs lines 123-135): start a stage from the
first chunk seen; `total_pieces` is the chunk's declared total. -/
def MsgStage.new (starter : MsgChunk) : MsgStage :=
  (MsgStage.add_chunk
    { this_id := starter.id, total_pieces := starter.total, pieces := [], size := 0 }
    starter).1

/-- `MsgStage::is_ready` (src/msgqueue.rs lines 137-139): ready when the
number of distinct stored indices equals the declared total. -/
def MsgStage.is_ready (s : MsgStage) : Bool :=
  s.total_pieces = s.pieces.length

/-- `MsgStage::merge` (src/msgqueue.rs lines 151-167): concatenate the stored
payloads in the iteration order of the `pieces` HashMap.  Rust leaves that
order unspecified; the embedding's insertion-ordered realization makes this
the arrival order of the distinct indices, not index-ascending order. -/
def MsgStage.merge (s : MsgStage) : CompleteMessage :=
  ⟨s.this_id, (s.pieces.map (fun p => p.2.payload)).flatten⟩

/-- Sum of the `size` fields of the staged buffers. -/
def sizeSum (l : List (Nat × MsgStage)) : Nat :=
  (l.map (fun p => p.2.size)).sum

/-- `MsgQueue::new` (src/msgqueue.rs lines 34-41). -/
def MsgQueue.new (max_size : Option Nat) : MsgQueue :=
  { last_released := none, stages := [], max_size := max_size, cur_size := 0 }

/-- `MsgQueue::mark_published` (src/msgqueue.rs lines 45-55): record the id
as released and remove every stage with a strictly smaller id, subtracting
each removed stage's size from `cur_size` (the loop's successive usize
subtractions equal one subtraction of the total, by Nat.sub_sub). -/
def MsgQueue.mark_published (q : MsgQueue) (just_published : Nat) : MsgQueue :=
  { q with
    last_released := some just_published,
    stages := q.stages.filter (fun p => !(p.1 < just_published : Bool)),
    cur_size := q.cur_size -
      sizeSum (q.stages.filter (fun p => (p.1 < just_published : Bool))) }

/-- Eviction loop body of `MsgQueue::prune` (src/msgqueue.rs lines 65-73).
The source pops ids off the end of a descending-sorted `Vec` of the open
keys; traversing the ascending-sorted key list from the head is the same
sequence.  Each step re-checks the capacity condition before evicting. -/
def MsgQueue.pruneLoop (maxS : Nat) : MsgQueue → List Nat → MsgQueue
  | q, [] => q
  | q, id :: rest =>
    if maxS < q.cur_size then
      match lookupKey id q.stages with
      | some stage =>
        MsgQueue.pruneLoop maxS
          { q with stages := eraseKey id q.stages,
                   cur_size := q.cur_size - stage.size } rest
      | none => MsgQueue.pruneLoop maxS q rest
    else q

/-- The keys of an association list, in entry order. -/
def keysOf {α : Type} (l : List (Nat × α)) : List Nat :=
  l.map (fun p => p.1)

/-- Ascending list of the open stage keys (the source sorts descending and
pops from the end, which visits keys in the same ascending order). -/
def sortedKeys (l : List (Nat × MsgStage)) : List Nat :=
  List.insertionSort (· ≤ ·) (keysOf l)

/-- `MsgQueue::prune` (src/msgqueue.rs lines 59-74): with no capacity bound
return immediately, otherwise evict open stages oldest-id-first while
`cur_size` exceeds the bound. -/
def MsgQueue.prune (q : MsgQueue) : MsgQueue :=
  match q.max_size with
  | none => q
  | some maxS => MsgQueue.pruneLoop maxS q (sortedKeys q.stages)

/-- The staleness test of src/msgqueue.rs lines 82-86: true when a last
released id exists and the incoming id does not exceed it (`last >= id`). -/
def staleCheck (last : Option Nat) (id : Nat) : Bool :=
  match last with
  | some l => id ≤ l
  | none => false

/-- Steps 2-5 of `MsgQueue::insert_chunk` (src/msgqueue.rs lines 80-117):
staleness rejection, the single-piece fast path, accumulation into an
existing stage, and new-stage creation. -/
def MsgQueue.insertSteps (q : MsgQueue) (chunk : MsgChunk) :
    Option CompleteMessage × MsgQueue :=
  let id := chunk.id
  if staleCheck q.last_released id then
    (none, q)
  else if chunk.total = 1 then
    (some ⟨id, chunk.payload⟩, q.mark_published id)
  else
    match lookupKey id q.stages with
    | some stage =>
      let res := stage.add_chunk chunk
      let q1 := { q with stages := setKey id res.1 q.stages,
                         cur_size := q.cur_size + res.2 }
      if res.1.is_ready then
        let q2 := { q1 with stages := eraseKey id q1.stages,
                            cur_size := q1.cur_size - res.1.size }
        (some res.1.merge, q2.mark_published id)
      else
        (none, q1)
    | none =>
      (none, { q with cur_size := q.cur_size + chunk.payload.length,
                      stages := q.stages ++ [(id, MsgStage.new chunk)] })

/-- `MsgQueue::insert_chunk` (src/msgqueue.rs lines 76-117): prune first
(line 78), then run the remaining steps on the pruned state. -/
def MsgQueue.insert_chunk (q : MsgQueue) (chunk : MsgChunk) :
    Option CompleteMessage × MsgQueue :=
  MsgQueue.insertSteps q.prune chunk

/-- Final queue state after feeding a list of chunks in order. -/
def runQueue (q : MsgQueue) : List MsgChunk → MsgQueue
  | [] => q
  | c :: cs => runQueue (q.insert_chunk c).2 cs

/-- The completed messages handed out while feeding a list of chunks in
order. -/
def runOutputs (q : MsgQueue) : List MsgChunk → List CompleteMessage
  | [] => []
  | c :: cs =>
    match q.insert_chunk c with
    | (some m, q2) => m :: runOutputs q2 cs
    | (none, q2) => runOutputs q2 cs

/-- Fuel-driven body of `chunksOf`; the fuel starts at the list length, which
suffices as long as the slice width is positive (each step consumes at least
one element), and keeps the recursion structural so that evaluation reduces
inside the kernel. -/
def chunksOfAux (size : Nat) : Nat → List Nat → List (List Nat)
  | 0, _ => []
  | _, [] => []
  | fuel + 1, a :: l => (a :: l).take size :: chunksOfAux size fuel ((a :: l).drop size)

/-- `slice::chunks(size)` from Rust: consecutive slices of at most `size`
elements.  Rust panics when `size = 0`; every use below has `size >= 1`. -/
def chunksOf (size : Nat) (l : List Nat) : List (List Nat) :=
  chunksOfAux size l.length l

/-- The fixed framing overhead `MSG_PADDING` (src/network.rs line 12). -/
def MSG_PADDING : Nat := 32

/-- The fragments queued by one `Sender::enqueue` call (src/network.rs lines
100-119), for the message id the call allocates.  `num_chunks` is the
truncating division `message.len() / (datagram_length - MSG_PADDING)`; each
slice of the payload becomes a chunk with 1-based index and declared total
`num_chunks + 1`.  The `as u16` cast on the total and the u16 counter
arithmetic are modelled by reduction mod 65536 (release-mode wrapping).  The
whole slice set is repeated `replication` times (lines 106-116). -/
def Sender.enqueueFragments (datagram_length : Nat) (replication : Nat)
    (id : Nat) (message : List Nat) : List MsgChunk :=
  let sliceSize := datagram_length - MSG_PADDING
  let num_chunks := message.length / sliceSize
  ((List.range replication).map (fun _ =>
    (chunksOf sliceSize message).enum.map (fun p =>
      { id := id, index := (p.1 + 1) % 65536,
        total := (num_chunks + 1) % 65536, payload := p.2 }))).flatten

/-- Smallest element of a list of keys, if any. -/
def minKeyL : List Nat → Option Nat
  | [] => none
  | k :: rest =>
    match minKeyL rest with
    | none => some k
    | some m => some (Nat.min k m)

/-- Smallest `MessageId` among the open buffers, if any. -/
def minKey (l : List (Nat × MsgStage)) : Option Nat :=
  minKeyL (keysOf l)

/-- Fuel-driven body of `pruneSpec`; the fuel starts at the number of open
buffers, which suffices because every iteration removes one buffer. -/
def pruneSpecAux (B : Nat) : Nat → MsgQueue → MsgQueue
  | 0, q => q
  | fuel + 1, q =>
    if q.cur_size ≤ B then q
    else
      match minKey q.stages with
      | none => q
      | some id =>
        match lookupKey id q.stages with
        | none => q
        | some s =>
          pruneSpecAux B fuel
            { q with stages := eraseKey id q.stages, cur_size := q.cur_size - s.size }

/-- Capacity enforcement in the specification's words: while `cur_size`
exceeds the bound and open buffers remain, repeatedly evict the buffer with
the smallest `MessageId`, removing it from the mapping and subtracting its
size from `cur_size`.  Used only to compare against the source-derived
`MsgQueue.prune`. -/
def pruneSpec (B : Nat) (q : MsgQueue) : MsgQueue :=
  pruneSpecAux B q.stages.length q

/-- State invariant of the reassembly queue, true of every state reachable
from `MsgQueue.new` by `insert_chunk` calls: stage keys are unique,
`cur_size` tracks the summed stage sizes, no stored stage is already ready,
each stage records its own key as `this_id`, and no stage id is below the
released high-water mark. -/
structure QInv (q : MsgQueue) : Prop where
  nodup : (keysOf q.stages).Nodup
  size_ok : q.cur_size = sizeSum q.stages
  not_ready : ∀ p, p ∈ q.stages → p.2.is_ready = false
  ids_ok : ∀ p, p ∈ q.stages → p.2.this_id = p.1
  ge_last : ∀ L p, q.last_released = some L → p ∈ q.stages → L ≤ p.1

/-- The per-peer queue the `Receiver` creates lazily inside `poll`
(src/network.rs line 74): the `MsgQueue::new()` call there supplies no
capacity bound, so the queue is unbounded. -/
def receiverPeerQueue : MsgQueue :=
  MsgQueue.new none

/-- A stream of `k` two-piece first fragments with the distinct ids
`start, start+1, ...`; none of them ever completes, so each one leaves an
open buffer behind.  Used to exhibit unbounded growth of an unbounded
queue. -/
def idsFrom : Nat → Nat → List MsgChunk
  | _, 0 => []
  | start, k + 1 => ⟨start, 1, 2, [0]⟩ :: idsFrom (start + 1) k

theorem keysOf_nil {α : Type} : keysOf ([] : List (Nat × α)) = [] := rfl

theorem keysOf_cons {α : Type} (p : Nat × α) (l : List (Nat × α)) :
    keysOf (p :: l) = p.1 :: keysOf l := rfl

theorem keysOf_append {α : Type} (l1 l2 : List (Nat × α)) :
    keysOf (l1 ++ l2) = keysOf l1 ++ keysOf l2 :=
  List.map_append _ l1 l2

theorem lookupKey_mem {α : Type} {k : Nat} {v : α} :
    ∀ {l : List (Nat × α)}, lookupKey k l = some v → (k, v) ∈ l := by
  intro l
  induction l with
  | nil => intro h; exact absurd h (by simp [lookupKey])
  | cons p rest ih =>
    intro h
    by_cases hk : p.1 = k
    · have hv : p.2 = v := by
        simpa [lookupKey, hk] using h
      have hp : p = (k, v) := by
        obtain ⟨a, b⟩ := p
        simp at hk hv
        rw [hk, hv]
      rw [← hp]
      exact List.mem_cons_self p rest
    · rw [lookupKey, if_neg hk] at h
      exact List.mem_cons_of_mem p (ih h)

theorem lookupKey_eq_none {α : Type} {k : Nat} :
    ∀ {l : List (Nat × α)}, k ∉ keysOf l → lookupKey k l = none := by
  intro l
  induction l with
  | nil => intro _; rfl
  | cons p rest ih =>
    intro h
    rw [keysOf_cons, List.mem_cons, not_or] at h
    rw [lookupKey, if_neg (fun hc => h.1 hc.symm)]
    exact ih h.2

theorem lookupKey_isSome_of_mem {α : Type} {k : Nat} :
    ∀ {l : List (Nat × α)}, k ∈ keysOf l → (lookupKey k l).isSome = true := by
  intro l
  induction l with
  | nil => intro h; exact absurd h (by simp [keysOf_nil])
  | cons p rest ih =>
    intro h
    by_cases hk : p.1 = k
    · simp [lookupKey, hk]
    · rw [keysOf_cons, List.mem_cons] at h
      rw [lookupKey, if_neg hk]
      exact ih (h.resolve_left (fun hc => hk hc.symm))

theorem keysOf_filter {α : Type} (f : Nat → Bool) (l : List (Nat × α)) :
    keysOf (l.filter (fun p => f p.1)) = (keysOf l).filter f := by
  induction l with
  | nil => rfl
  | cons p rest ih =>
    by_cases hf : f p.1
    · simp [List.filter_cons, keysOf_cons, hf, ih]
    · simp [List.filter_cons, keysOf_cons, hf, ih]

theorem keysOf_eraseKey {α : Type} (k : Nat) (l : List (Nat × α)) :
    keysOf (eraseKey k l) = (keysOf l).filter (fun x => !(x = k : Bool)) :=
  keysOf_filter (fun x => !(x = k : Bool)) l

theorem keysOf_setKey {α : Type} (k : Nat) (v : α) (l : List (Nat × α)) :
    keysOf (setKey k v l) = keysOf l := by
  induction l with
  | nil => rfl
  | cons p rest ih =>
    by_cases hk : p.1 = k
    · show (if p.1 = k then (k, v) else p).1 :: keysOf (setKey k v rest) = _
      rw [if_pos hk, keysOf_cons, ih, hk]
    · show (if p.1 = k then (k, v) else p).1 :: keysOf (setKey k v rest) = _
      rw [if_neg hk, keysOf_cons, ih]

theorem mem_eraseKey {α : Type} {p : Nat × α} {k : Nat} {l : List (Nat × α)}
    (h : p ∈ eraseKey k l) : p ∈ l :=
  List.mem_of_mem_filter h

theorem mem_setKey {α : Type} {p : Nat × α} {k : Nat} {v : α} {l : List (Nat × α)}
    (h : p ∈ setKey k v l) : p ∈ l ∨ p = (k, v) := by
  rcases List.mem_map.mp h with ⟨a, ha, hap⟩
  by_cases hk : a.1 = k
  · right
    rw [if_pos hk] at hap
    exact hap.symm
  · left
    rw [if_neg hk] at hap
    rw [← hap]
    exact ha

theorem eraseKey_setKey {α : Type} (k : Nat) (v : α) (l : List (Nat × α)) :
    eraseKey k (setKey k v l) = eraseKey k l := by
  induction l with
  | nil => rfl
  | cons p rest ih =>
    by_cases hk : p.1 = k
    · show List.filter _ (ite _ _ _ :: setKey k v rest) = _
      rw [if_pos hk]
      show List.filter _ ((k, v) :: setKey k v rest) = _
      rw [List.filter_cons_of_neg (by simp), eraseKey,
        List.filter_cons_of_neg (by simp [hk])]
      exact ih
    · show List.filter _ (ite _ _ _ :: setKey k v rest) = _
      rw [if_neg hk]
      show List.filter _ (p :: setKey k v rest) = _
      rw [List.filter_cons_of_pos (by simp [hk]), eraseKey,
        List.filter_cons_of_pos (by simp [hk])]
      exact congrArg (p :: ·) ih

theorem eraseKey_of_not_mem {α : Type} {k : Nat} {l : List (Nat × α)}
    (h : k ∉ keysOf l) : eraseKey k l = l := by
  induction l with
  | nil => rfl
  | cons p rest ih =>
    rw [keysOf_cons, List.mem_cons, not_or] at h
    rw [eraseKey, List.filter_cons_of_pos (by simp; exact fun hc => h.1 hc.symm)]
    exact congrArg (p :: ·) (ih h.2)

theorem setKey_of_not_mem {α : Type} {k : Nat} {v : α} {l : List (Nat × α)}
    (h : k ∉ keysOf l) : setKey k v l = l := by
  induction l with
  | nil => rfl
  | cons p rest ih =>
    rw [keysOf_cons, List.mem_cons, not_or] at h
    show (if p.1 = k then (k, v) else p) :: setKey k v rest = _
    rw [if_neg (fun hc => h.1 hc.symm)]
    exact congrArg (p :: ·) (ih h.2)

theorem setKey_eq_self {k : Nat} {α : Type} {v : α} {l : List (Nat × α)}
    (nd : (keysOf l).Nodup) (h : lookupKey k l = some v) : setKey k v l = l := by
  induction l with
  | nil => exact absurd h (by simp [lookupKey])
  | cons p rest ih =>
    rw [keysOf_cons, List.nodup_cons] at nd
    by_cases hk : p.1 = k
    · have hv : p.2 = v := by simpa [lookupKey, hk] using h
      have hp : p = (k, v) := by
        obtain ⟨a, b⟩ := p
        simp at hk hv
        rw [hk, hv]
      show (if p.1 = k then (k, v) else p) :: setKey k v rest = _
      rw [if_pos hk, ← hp]
      refine congrArg (p :: ·) (setKey_of_not_mem ?_)
      rw [← hk]
      exact nd.1
    · rw [lookupKey, if_neg hk] at h
      show (if p.1 = k then (k, v) else p) :: setKey k v rest = _
      rw [if_neg hk]
      exact congrArg (p :: ·) (ih nd.2 h)

theorem sizeSum_nil : sizeSum [] = 0 := rfl

theorem sizeSum_cons (p : Nat × MsgStage) (l : List (Nat × MsgStage)) :
    sizeSum (p :: l) = p.2.size + sizeSum l := by
  simp [sizeSum]

theorem sizeSum_append (l : List (Nat × MsgStage)) (x : Nat × MsgStage) :
    sizeSum (l ++ [x]) = sizeSum l + x.2.size := by
  simp [sizeSum]

theorem sizeSum_filter_split (f : Nat × MsgStage → Bool) (l : List (Nat × MsgStage)) :
    sizeSum l = sizeSum (l.filter f) + sizeSum (l.filter (fun p => !(f p))) := by
  induction l with
  | nil => rfl
  | cons p rest ih =>
    by_cases hf : f p
    · simp [List.filter_cons, hf, sizeSum_cons, ih]
      omega
    · simp [List.filter_cons, hf, sizeSum_cons, ih]
      omega

theorem sizeSum_eraseKey {k : Nat} {v : MsgStage} {l : List (Nat × MsgStage)}
    (nd : (keysOf l).Nodup) (h : lookupKey k l = some v) :
    sizeSum (eraseKey k l) + v.size = sizeSum l := by
  induction l with
  | nil => exact absurd h (by simp [lookupKey])
  | cons p rest ih =>
    rw [keysOf_cons, List.nodup_cons] at nd
    by_cases hk : p.1 = k
    · have hv : p.2 = v := by simpa [lookupKey, hk] using h
      rw [eraseKey, List.filter_cons_of_neg (by simp [hk]),
        show List.filter (fun p => !(p.1 = k : Bool)) rest = eraseKey k rest from rfl,
        eraseKey_of_not_mem (hk ▸ nd.1), sizeSum_cons, hv]
      omega
    · rw [lookupKey, if_neg hk] at h
      rw [eraseKey, List.filter_cons_of_pos (by simp [hk]),
        show List.filter (fun p => !(p.1 = k : Bool)) rest = eraseKey k rest from rfl,
        sizeSum_cons, sizeSum_cons]
      have := ih nd.2 h
      omega

theorem sizeSum_setKey {k : Nat} {v : MsgStage} {l : List (Nat × MsgStage)}
    (nd : (keysOf l).Nodup) (h : lookupKey k l = some v) (v2 : MsgStage) :
    sizeSum (setKey k v2 l) + v.size = sizeSum l + v2.size := by
  induction l with
  | nil => exact absurd h (by simp [lookupKey])
  | cons p rest ih =>
    rw [keysOf_cons, List.nodup_cons] at nd
    by_cases hk : p.1 = k
    · have hv : p.2 = v := by simpa [lookupKey, hk] using h
      show sizeSum ((if p.1 = k then (k, v2) else p) :: setKey k v2 rest) + v.size = _
      rw [if_pos hk, setKey_of_not_mem (hk ▸ nd.1), sizeSum_cons, sizeSum_cons, hv]
      simp
      omega
    · rw [lookupKey, if_neg hk] at h
      show sizeSum ((if p.1 = k then (k, v2) else p) :: setKey k v2 rest) + v.size = _
      rw [if_neg hk, sizeSum_cons, sizeSum_cons]
      have := ih nd.2 h
      omega

theorem minKeyL_eq_none_iff : ∀ {l : List Nat}, minKeyL l = none ↔ l = [] := by
  intro l
  cases l with
  | nil => simp [minKeyL]
  | cons k rest =>
    rw [minKeyL]
    cases minKeyL rest <;> simp

theorem minKeyL_mem : ∀ {l : List Nat} {m : Nat}, minKeyL l = some m → m ∈ l := by
  intro l
  induction l with
  | nil => intro m h; exact absurd h (by simp [minKeyL])
  | cons k rest ih =>
    intro m h
    rw [minKeyL] at h
    cases hr : minKeyL rest with
    | none =>
      rw [hr] at h
      simp at h
      simp [h]
    | some m2 =>
      rw [hr] at h
      simp at h
      by_cases hc : k ≤ m2
      · rw [show Nat.min k m2 = if k ≤ m2 then k else m2 from rfl, if_pos hc] at h
        simp [h]
      · rw [show Nat.min k m2 = if k ≤ m2 then k else m2 from rfl, if_neg hc] at h
        exact List.mem_cons_of_mem k (ih (h ▸ hr))

theorem minKeyL_le : ∀ {l : List Nat} {m : Nat}, minKeyL l = some m → ∀ x ∈ l, m ≤ x := by
  intro l
  induction l with
  | nil => intro m h; exact absurd h (by simp [minKeyL])
  | cons k rest ih =>
    intro m h x hx
    rw [minKeyL] at h
    cases hr : minKeyL rest with
    | none =>
      have hrest : rest = [] := minKeyL_eq_none_iff.mp hr
      rw [hr] at h
      simp at h
      rw [hrest] at hx
      simp at hx
      omega
    | some m2 =>
      rw [hr] at h
      simp at h
      have h1 : m ≤ k := h ▸ Nat.min_le_left k m2
      have h2 : m ≤ m2 := h ▸ Nat.min_le_right k m2
      rcases List.mem_cons.mp hx with hxk | hxr
      · omega
      · have := ih hr x hxr
        omega

theorem minKeyL_eq_some : ∀ {l : List Nat} {m : Nat}, m ∈ l → (∀ x ∈ l, m ≤ x) →
    minKeyL l = some m := by
  intro l
  induction l with
  | nil => intro m h; exact absurd h (by simp)
  | cons k rest ih =>
    intro m hm hle
    rw [minKeyL]
    cases hr : minKeyL rest with
    | none =>
      have hrest : rest = [] := minKeyL_eq_none_iff.mp hr
      rw [hrest] at hm
      simp at hm
      simp [hm]
    | some m2 =>
      have hm2r : m2 ∈ rest := minKeyL_mem hr
      have hmk : m ≤ k := hle k (List.mem_cons_self k rest)
      have hmm2 : m ≤ m2 := hle m2 (List.mem_cons_of_mem k hm2r)
      show some (Nat.min k m2) = some m
      rw [show Nat.min k m2 = if k ≤ m2 then k else m2 from rfl]
      rcases List.mem_cons.mp hm with hmkk | hmr
      · rw [if_pos (hmkk ▸ hmm2 : k ≤ m2), hmkk]
      · have h1 : m2 ≤ m := minKeyL_le hr m hmr
        have heq : m = m2 := Nat.le_antisymm hmm2 h1
        by_cases hc : k ≤ m2
        · have hkm : k = m := Nat.le_antisymm (heq ▸ hc) hmk
          rw [if_pos hc, hkm]
        · rw [if_neg hc, heq]

theorem add_chunk_this_id (s : MsgStage) (c : MsgChunk) :
    (s.add_chunk c).1.this_id = s.this_id := by
  rw [MsgStage.add_chunk]
  cases lookupKey c.index s.pieces <;> rfl

theorem add_chunk_size (s : MsgStage) (c : MsgChunk) :
    (s.add_chunk c).1.size = s.size + (s.add_chunk c).2 := by
  rw [MsgStage.add_chunk]
  cases lookupKey c.index s.pieces <;> simp

theorem stage_new_size (c : MsgChunk) : (MsgStage.new c).size = c.payload.length := by
  simp [MsgStage.new, MsgStage.add_chunk, lookupKey]

theorem stage_new_this_id (c : MsgChunk) : (MsgStage.new c).this_id = c.id := rfl

theorem stage_new_not_ready (c : MsgChunk) (h : c.total ≠ 1) :
    (MsgStage.new c).is_ready = false := by
  simp [MsgStage.new, MsgStage.add_chunk, MsgStage.is_ready, lookupKey]
  exact h

theorem staleCheck_some (L id : Nat) :
    staleCheck (some L) id = decide (id ≤ L) := rfl

theorem pruneLoop_last (maxS : Nat) :
    ∀ (K : List Nat) (q : MsgQueue),
      (MsgQueue.pruneLoop maxS q K).last_released = q.last_released := by
  intro K
  induction K with
  | nil => intro q; rfl
  | cons id rest ih =>
    intro q
    rw [MsgQueue.pruneLoop]
    by_cases hc : maxS < q.cur_size
    · rw [if_pos hc]
      cases lookupKey id q.stages with
      | some stage => exact ih _
      | none => exact ih q
    · rw [if_neg hc]

theorem pruneLoop_max (maxS : Nat) :
    ∀ (K : List Nat) (q : MsgQueue),
      (MsgQueue.pruneLoop maxS q K).max_size = q.max_size := by
  intro K
  induction K with
  | nil => intro q; rfl
  | cons id rest ih =>
    intro q
    rw [MsgQueue.pruneLoop]
    by_cases hc : maxS < q.cur_size
    · rw [if_pos hc]
      cases lookupKey id q.stages with
      | some stage => exact ih _
      | none => exact ih q
    · rw [if_neg hc]

theorem prune_last (q : MsgQueue) : q.prune.last_released = q.last_released := by
  rw [MsgQueue.prune]
  cases q.max_size with
  | none => rfl
  | some maxS => exact pruneLoop_last maxS _ q

theorem prune_max (q : MsgQueue) : q.prune.max_size = q.max_size := by
  rw [MsgQueue.prune]
  cases hq : q.max_size with
  | none => exact hq
  | some maxS => rw [pruneLoop_max maxS _ q, hq]

theorem prune_of_none {q : MsgQueue} (h : q.max_size = none) : q.prune = q := by
  rw [MsgQueue.prune, h]

theorem sizeSum_lt_split (id : Nat) (l : List (Nat × MsgStage)) :
    sizeSum l = sizeSum (l.filter (fun p => (p.1 < id : Bool))) +
      sizeSum (l.filter (fun p => !(p.1 < id : Bool))) := by
  induction l with
  | nil => rfl
  | cons p rest ih =>
    by_cases hf : p.1 < id
    · simp [List.filter_cons, hf, sizeSum_cons, ih]
      omega
    · simp [List.filter_cons, hf, sizeSum_cons, ih]
      omega

theorem qinv_new (mx : Option Nat) : QInv (MsgQueue.new mx) := by
  constructor
  · exact List.nodup_nil
  · rfl
  · intro p hp; exact absurd hp (by simp [MsgQueue.new])
  · intro p hp; exact absurd hp (by simp [MsgQueue.new])
  · intro L p hL _; exact absurd hL (by simp [MsgQueue.new])

theorem qinv_mark_published {q : MsgQueue} (h : QInv q) (id : Nat) :
    QInv (q.mark_published id) := by
  constructor
  · show (keysOf (q.stages.filter (fun p => !(p.1 < id : Bool)))).Nodup
    rw [keysOf_filter (fun x => !(x < id : Bool))]
    exact h.nodup.filter _
  · show q.cur_size - sizeSum (q.stages.filter (fun p => (p.1 < id : Bool))) =
      sizeSum (q.stages.filter (fun p => !(p.1 < id : Bool)))
    have hsplit := sizeSum_lt_split id q.stages
    have hs := h.size_ok
    omega
  · intro p hp
    exact h.not_ready p (List.mem_of_mem_filter hp)
  · intro p hp
    exact h.ids_ok p (List.mem_of_mem_filter hp)
  · intro L p hL hp
    have hge := (List.mem_filter.mp hp).2
    simp at hge
    have hid : id = L := Option.some.inj (hL : some id = some L)
    omega

theorem qinv_pruneLoop (maxS : Nat) :
    ∀ (K : List Nat) {q : MsgQueue}, QInv q → QInv (MsgQueue.pruneLoop maxS q K) := by
  intro K
  induction K with
  | nil => intro q h; exact h
  | cons id rest ih =>
    intro q h
    rw [MsgQueue.pruneLoop]
    by_cases hc : maxS < q.cur_size
    · rw [if_pos hc]
      cases hlk : lookupKey id q.stages with
      | none => exact ih h
      | some stage =>
        refine ih ?_
        constructor
        · show (keysOf (eraseKey id q.stages)).Nodup
          rw [keysOf_eraseKey]
          exact h.nodup.filter _
        · show q.cur_size - stage.size = sizeSum (eraseKey id q.stages)
          have h1 := sizeSum_eraseKey h.nodup hlk
          have h2 := h.size_ok
          omega
        · intro p hp; exact h.not_ready p (mem_eraseKey hp)
        · intro p hp; exact h.ids_ok p (mem_eraseKey hp)
        · intro L p hL hp; exact h.ge_last L p hL (mem_eraseKey hp)
    · rw [if_neg hc]
      exact h

theorem qinv_prune {q : MsgQueue} (h : QInv q) : QInv q.prune := by
  rw [MsgQueue.prune]
  cases q.max_size with
  | none => exact h
  | some maxS => exact qinv_pruneLoop maxS _ h

theorem not_stale_lt {last : Option Nat} {id : Nat}
    (h : ¬ staleCheck last id = true) : ∀ L, last = some L → L < id := by
  intro L hL
  rw [hL, staleCheck_some] at h
  simpa using Nat.lt_of_not_le (fun hc => h (decide_eq_true hc))

theorem qinv_insertSteps {q : MsgQueue} (h : QInv q) (c : MsgChunk) :
    QInv (q.insertSteps c).2 := by
  simp only [MsgQueue.insertSteps]
  by_cases hst : staleCheck q.last_released c.id = true
  · rw [if_pos hst]
    exact h
  · rw [if_neg hst]
    by_cases h1 : c.total = 1
    · rw [if_pos h1]
      exact qinv_mark_published h c.id
    · rw [if_neg h1]
      split
      next stage hlk =>
        have hmem : (c.id, stage) ∈ q.stages := lookupKey_mem hlk
        have hthis : stage.this_id = c.id := h.ids_ok _ hmem
        by_cases hr : (stage.add_chunk c).1.is_ready = true
        · rw [if_pos hr]
          refine qinv_mark_published ?_ c.id
          constructor
          · show (keysOf (eraseKey c.id (setKey c.id (stage.add_chunk c).1 q.stages))).Nodup
            rw [eraseKey_setKey, keysOf_eraseKey]
            exact h.nodup.filter _
          · show q.cur_size + (stage.add_chunk c).2 - (stage.add_chunk c).1.size =
              sizeSum (eraseKey c.id (setKey c.id (stage.add_chunk c).1 q.stages))
            rw [eraseKey_setKey]
            have h2 := sizeSum_eraseKey h.nodup hlk
            have h3 := h.size_ok
            have h4 := add_chunk_size stage c
            omega
          · intro p hp
            rw [eraseKey_setKey] at hp
            exact h.not_ready p (mem_eraseKey hp)
          · intro p hp
            rw [eraseKey_setKey] at hp
            exact h.ids_ok p (mem_eraseKey hp)
          · intro L p hL hp
            rw [eraseKey_setKey] at hp
            exact h.ge_last L p hL (mem_eraseKey hp)
        · rw [if_neg hr]
          constructor
          · show (keysOf (setKey c.id (stage.add_chunk c).1 q.stages)).Nodup
            rw [keysOf_setKey]
            exact h.nodup
          · show q.cur_size + (stage.add_chunk c).2 =
              sizeSum (setKey c.id (stage.add_chunk c).1 q.stages)
            have h2 := sizeSum_setKey h.nodup hlk (stage.add_chunk c).1
            have h3 := add_chunk_size stage c
            have h4 := h.size_ok
            omega
          · intro p hp
            rcases mem_setKey hp with hp | hp
            · exact h.not_ready p hp
            · rw [hp]
              exact (Bool.not_eq_true _) ▸ hr
          · intro p hp
            rcases mem_setKey hp with hp | hp
            · exact h.ids_ok p hp
            · rw [hp]
              show (stage.add_chunk c).1.this_id = c.id
              rw [add_chunk_this_id]
              exact hthis
          · intro L p hL hp
            rcases mem_setKey hp with hp | hp
            · exact h.ge_last L p hL hp
            · rw [hp]
              exact Nat.le_of_lt (not_stale_lt hst L hL)
      next hlk =>
        have hnin : c.id ∉ keysOf q.stages := by
          intro hmem
          have hs := lookupKey_isSome_of_mem hmem
          rw [hlk] at hs
          simp at hs
        constructor
        · show (keysOf (q.stages ++ [(c.id, MsgStage.new c)])).Nodup
          rw [keysOf_append]
          refine List.Nodup.append h.nodup (List.nodup_singleton c.id) ?_
          intro x hx hx2
          rw [show keysOf [(c.id, MsgStage.new c)] = [c.id] from rfl,
            List.mem_singleton] at hx2
          exact hnin (hx2 ▸ hx)
        · show q.cur_size + c.payload.length =
            sizeSum (q.stages ++ [(c.id, MsgStage.new c)])
          rw [sizeSum_append, h.size_ok, stage_new_size]
        · intro p hp
          rcases List.mem_append.mp hp with hp | hp
          · exact h.not_ready p hp
          · rw [List.mem_singleton] at hp
            rw [hp]
            exact stage_new_not_ready c h1
        · intro p hp
          rcases List.mem_append.mp hp with hp | hp
          · exact h.ids_ok p hp
          · rw [List.mem_singleton] at hp
            rw [hp]
            exact stage_new_this_id c
        · intro L p hL hp
          rcases List.mem_append.mp hp with hp | hp
          · exact h.ge_last L p hL hp
          · rw [List.mem_singleton] at hp
            rw [hp]
            exact Nat.le_of_lt (not_stale_lt hst L hL)

theorem qinv_insert_chunk {q : MsgQueue} (h : QInv q) (c : MsgChunk) :
    QInv (q.insert_chunk c).2 :=
  qinv_insertSteps (qinv_prune h) c

theorem qinv_runQueue : ∀ (cs : List MsgChunk) {q : MsgQueue}, QInv q →
    QInv (runQueue q cs) := by
  intro cs
  induction cs with
  | nil => intro q h; exact h
  | cons c rest ih =>
    intro q h
    exact ih (qinv_insert_chunk h c)

theorem pruneLoop_eq_pruneSpecAux (B : Nat) :
    ∀ (K : List Nat) (q : MsgQueue), K.Sorted (· ≤ ·) → K.Nodup →
      (keysOf q.stages).Perm K →
      MsgQueue.pruneLoop B q K = pruneSpecAux B K.length q := by
  intro K
  induction K with
  | nil =>
    intro q _ _ _
    rfl
  | cons k rest ih =>
    intro q hsort hnd hperm
    rw [MsgQueue.pruneLoop, show (k :: rest).length = rest.length + 1 from rfl]
    by_cases hc : B < q.cur_size
    · rw [if_pos hc]
      have hkmem : k ∈ keysOf q.stages := hperm.mem_iff.mpr (List.mem_cons_self k rest)
      have hsome := lookupKey_isSome_of_mem hkmem
      obtain ⟨s, hlk⟩ := Option.isSome_iff_exists.mp hsome
      have hmin : minKey q.stages = some k := by
        rw [minKey]
        refine minKeyL_eq_some hkmem ?_
        intro x hx
        have hxK : x ∈ k :: rest := hperm.mem_iff.mp hx
        rcases List.mem_cons.mp hxK with hxk | hxr
        · omega
        · exact List.rel_of_sorted_cons hsort x hxr
      have hperm2 : (keysOf (eraseKey k q.stages)).Perm rest := by
        rw [keysOf_eraseKey]
        have hp := hperm.filter (fun x => !(x = k : Bool))
        have hknr : k ∉ rest := (List.nodup_cons.mp hnd).1
        have hre : (k :: rest).filter (fun x => !(x = k : Bool)) = rest := by
          rw [List.filter_cons_of_neg (by simp)]
          exact List.filter_eq_self.mpr
            (fun x hx => by simp; exact fun hxk => hknr (hxk ▸ hx))
        rw [hre] at hp
        exact hp
      have hstep : pruneSpecAux B (rest.length + 1) q = pruneSpecAux B rest.length
          { q with stages := eraseKey k q.stages, cur_size := q.cur_size - s.size } := by
        rw [pruneSpecAux, if_neg (by omega : ¬ q.cur_size ≤ B)]
        split
        next hm =>
          rw [hmin] at hm
          cases hm
        next id2 hm =>
          rw [hmin] at hm
          injection hm with hid
          subst hid
          split
          next hl =>
            rw [hlk] at hl
            cases hl
          next s2 hl =>
            rw [hlk] at hl
            injection hl with hs
            subst hs
            rfl
      rw [hstep, hlk]
      exact ih { q with stages := eraseKey k q.stages, cur_size := q.cur_size - s.size }
        (List.sorted_cons.mp hsort).2 (List.Nodup.of_cons hnd) hperm2
    · rw [if_neg hc, pruneSpecAux, if_pos (by omega : q.cur_size ≤ B)]

theorem prune_eq_pruneSpec {q : MsgQueue} {B : Nat} (hmax : q.max_size = some B)
    (hnd : (keysOf q.stages).Nodup) : q.prune = pruneSpec B q := by
  rw [MsgQueue.prune, hmax, pruneSpec]
  have hperm : (keysOf q.stages).Perm (sortedKeys q.stages) :=
    (List.perm_insertionSort _ _).symm
  have h1 : (keysOf q.stages).length = q.stages.length := List.length_map _ _
  have hlen : q.stages.length = (sortedKeys q.stages).length := by
    rw [← hperm.length_eq, h1]
  rw [hlen]
  exact pruneLoop_eq_pruneSpecAux B _ q (List.sorted_insertionSort _ _)
    (hperm.nodup_iff.mp hnd) hperm

theorem pruneLoop_post (maxS : Nat) :
    ∀ (K : List Nat) (q : MsgQueue), (∀ x ∈ keysOf q.stages, x ∈ K) →
      (MsgQueue.pruneLoop maxS q K).cur_size ≤ maxS ∨
        (MsgQueue.pruneLoop maxS q K).stages = [] := by
  intro K
  induction K with
  | nil =>
    intro q hsub
    right
    show q.stages = []
    cases hs : q.stages with
    | nil => rfl
    | cons p rest =>
      exact absurd (hsub p.1 (by rw [hs, keysOf_cons]; exact List.mem_cons_self _ _))
        (by simp)
  | cons k rest ih =>
    intro q hsub
    rw [MsgQueue.pruneLoop]
    by_cases hc : maxS < q.cur_size
    · rw [if_pos hc]
      cases hlk : lookupKey k q.stages with
      | some s =>
        apply ih
        intro x hx
        rw [keysOf_eraseKey] at hx
        have hx2 := List.mem_filter.mp hx
        have hxk : x ≠ k := by simpa using hx2.2
        rcases List.mem_cons.mp (hsub x hx2.1) with h | h
        · exact absurd h hxk
        · exact h
      | none =>
        apply ih
        intro x hx
        rcases List.mem_cons.mp (hsub x hx) with h | h
        · exfalso
          rw [h] at hx
          have hs := lookupKey_isSome_of_mem hx
          rw [hlk] at hs
          simp at hs
        · exact h
    · rw [if_neg hc]
      left
      omega

theorem prune_post {q : MsgQueue} {B : Nat} (hmax : q.max_size = some B) :
    q.prune.cur_size ≤ B ∨ q.prune.stages = [] := by
  rw [MsgQueue.prune, hmax]
  apply pruneLoop_post
  intro x hx
  exact (List.perm_insertionSort _ _).mem_iff.mpr hx

theorem insertSteps_max (q : MsgQueue) (c : MsgChunk) :
    (q.insertSteps c).2.max_size = q.max_size := by
  simp only [MsgQueue.insertSteps]
  by_cases hst : staleCheck q.last_released c.id = true
  · rw [if_pos hst]
  · rw [if_neg hst]
    by_cases h1 : c.total = 1
    · rw [if_pos h1]
      rfl
    · rw [if_neg h1]
      split
      next stage hlk =>
        by_cases hr : (stage.add_chunk c).1.is_ready = true
        · rw [if_pos hr]
          rfl
        · rw [if_neg hr]
      next hlk => rfl

theorem insert_chunk_max (q : MsgQueue) (c : MsgChunk) :
    (q.insert_chunk c).2.max_size = q.max_size := by
  rw [MsgQueue.insert_chunk, insertSteps_max, prune_max]

theorem runQueue_max : ∀ (cs : List MsgChunk) (q : MsgQueue),
    (runQueue q cs).max_size = q.max_size := by
  intro cs
  induction cs with
  | nil => intro q; rfl
  | cons c rest ih =>
    intro q
    rw [runQueue, ih, insert_chunk_max]

theorem insertSteps_none_last {q : MsgQueue} {c : MsgChunk}
    (h : (q.insertSteps c).1 = none) :
    (q.insertSteps c).2.last_released = q.last_released := by
  revert h
  simp only [MsgQueue.insertSteps]
  by_cases hst : staleCheck q.last_released c.id = true
  · rw [if_pos hst]
    intro _
    rfl
  · rw [if_neg hst]
    by_cases h1 : c.total = 1
    · rw [if_pos h1]
      intro hcon
      simp at hcon
    · rw [if_neg h1]
      split
      next stage hlk =>
        by_cases hr : (stage.add_chunk c).1.is_ready = true
        · rw [if_pos hr]
          intro hcon
          simp at hcon
        · rw [if_neg hr]
          intro _
          rfl
      next hlk =>
        intro _
        rfl

theorem insertSteps_some_last {q : MsgQueue} {c : MsgChunk} {m : CompleteMessage}
    (hInv : QInv q) (h : (q.insertSteps c).1 = some m) :
    (q.insertSteps c).2.last_released = some m.id ∧
      ∀ L, q.last_released = some L → L < m.id := by
  revert h
  simp only [MsgQueue.insertSteps]
  by_cases hst : staleCheck q.last_released c.id = true
  · rw [if_pos hst]
    intro hcon
    simp at hcon
  · rw [if_neg hst]
    by_cases h1 : c.total = 1
    · rw [if_pos h1]
      intro hm
      have hme : (⟨c.id, c.payload⟩ : CompleteMessage) = m := Option.some.inj hm
      have hmid : m.id = c.id := by rw [← hme]
      constructor
      · show some c.id = some m.id
        rw [hmid]
      · intro L hL
        rw [hmid]
        exact not_stale_lt hst L hL
    · rw [if_neg h1]
      split
      next stage hlk =>
        by_cases hr : (stage.add_chunk c).1.is_ready = true
        · rw [if_pos hr]
          intro hm
          have hme : (stage.add_chunk c).1.merge = m := Option.some.inj hm
          have hmid : m.id = c.id := by
            rw [← hme]
            show (stage.add_chunk c).1.this_id = c.id
            rw [add_chunk_this_id]
            exact hInv.ids_ok _ (lookupKey_mem hlk)
          constructor
          · show some c.id = some m.id
            rw [hmid]
          · intro L hL
            rw [hmid]
            exact not_stale_lt hst L hL
        · rw [if_neg hr]
          intro hcon
          simp at hcon
      next hlk =>
        intro hcon
        simp at hcon

theorem insert_chunk_none_last {q : MsgQueue} {c : MsgChunk}
    (h : (q.insert_chunk c).1 = none) :
    (q.insert_chunk c).2.last_released = q.last_released := by
  rw [MsgQueue.insert_chunk] at h ⊢
  rw [insertSteps_none_last h, prune_last]

theorem insert_chunk_some_last {q : MsgQueue} {c : MsgChunk} {m : CompleteMessage}
    (hInv : QInv q) (h : (q.insert_chunk c).1 = some m) :
    (q.insert_chunk c).2.last_released = some m.id ∧
      ∀ L, q.last_released = some L → L < m.id := by
  rw [MsgQueue.insert_chunk] at h ⊢
  have h2 := insertSteps_some_last (qinv_prune hInv) h
  refine ⟨h2.1, fun L hL => h2.2 L ?_⟩
  rw [prune_last]
  exact hL

theorem insert_chunk_stale {q : MsgQueue} {c : MsgChunk} {L : Nat}
    (h1 : q.last_released = some L) (h2 : c.id ≤ L) :
    q.insert_chunk c = (none, q.prune) := by
  have hst : staleCheck q.prune.last_released c.id = true := by
    rw [prune_last, h1, staleCheck_some]
    exact decide_eq_true h2
  rw [MsgQueue.insert_chunk]
  simp only [MsgQueue.insertSteps]
  rw [if_pos hst]

theorem runQueue_growth : ∀ (k start : Nat) {q : MsgQueue},
    q.max_size = none → q.last_released = none →
    (∀ x ∈ keysOf q.stages, x < start) →
    (runQueue q (idsFrom start k)).cur_size = q.cur_size + k := by
  intro k
  induction k with
  | zero =>
    intro start q _ _ _
    rfl
  | succ n ih =>
    intro start q hmax hlast hbound
    rw [idsFrom, runQueue]
    have hlk : lookupKey start q.stages = none :=
      lookupKey_eq_none (fun hmem => absurd (hbound start hmem) (by omega))
    have hq : q.insert_chunk ⟨start, 1, 2, [0]⟩ =
        (none, { q with cur_size := q.cur_size + 1,
                        stages := q.stages ++ [(start, MsgStage.new ⟨start, 1, 2, [0]⟩)] }) := by
      rw [MsgQueue.insert_chunk, prune_of_none hmax]
      simp only [MsgQueue.insertSteps]
      rw [if_neg (by rw [hlast]; simp [staleCheck])]
      rw [if_neg (by simp : ¬ (⟨start, 1, 2, [0]⟩ : MsgChunk).total = 1)]
      rw [hlk]
      rfl
    rw [hq]
    have hres := ih (start + 1)
      (q := { q with cur_size := q.cur_size + 1,
                     stages := q.stages ++ [(start, MsgStage.new ⟨start, 1, 2, [0]⟩)] })
      hmax hlast ?_
    · rw [hres]
      show q.cur_size + 1 + n = q.cur_size + (n + 1)
      omega
    · intro x hx
      rw [keysOf_append] at hx
      rcases List.mem_append.mp hx with hx | hx
      · exact Nat.lt_succ_of_lt (hbound x hx)
      · rw [show keysOf [(start, MsgStage.new ⟨start, 1, 2, [0]⟩)] = [start] from rfl,
          List.mem_singleton] at hx
        omega

theorem runOutputs_mono : ∀ (cs : List MsgChunk) {q : MsgQueue}, QInv q →
    (runOutputs q cs).Pairwise (fun a b => a.id < b.id) ∧
      (∀ L, q.last_released = some L → ∀ m ∈ runOutputs q cs, L < m.id) := by
  intro cs
  induction cs with
  | nil =>
    intro q _
    exact ⟨List.Pairwise.nil, fun L _ m hm => absurd hm (by simp [runOutputs])⟩
  | cons c rest ih =>
    intro q h
    rw [runOutputs]
    cases hres : q.insert_chunk c with
    | mk fst snd =>
      cases fst with
      | none =>
        have hq2 : QInv snd := by
          have := qinv_insert_chunk h c
          rw [hres] at this
          exact this
        have hlast : snd.last_released = q.last_released := by
          have := insert_chunk_none_last (q := q) (c := c) (by rw [hres])
          rw [hres] at this
          exact this
        have hih := ih hq2
        refine ⟨hih.1, fun L hL m hm => hih.2 L (by rw [hlast]; exact hL) m hm⟩
      | some m =>
        have hq2 : QInv snd := by
          have := qinv_insert_chunk h c
          rw [hres] at this
          exact this
        have hsome := insert_chunk_some_last h (by rw [hres] : (q.insert_chunk c).1 = some m)
        have hlast : snd.last_released = some m.id := by
          have := hsome.1
          rw [hres] at this
          exact this
        have hih := ih hq2
        have hbound : ∀ x ∈ runOutputs snd rest, m.id < x.id :=
          fun x hx => hih.2 m.id hlast x hx
        constructor
        · exact List.Pairwise.cons hbound hih.1
        · intro L hL x hx
          rcases List.mem_cons.mp hx with hxm | hxr
          · rw [hxm]
            exact hsome.2 L hL
          · exact Nat.lt_trans (hsome.2 L hL) (hbound x hxr)

/-- C1: the claim states that inserting all k fragments of a message (in any
permutation) yields one completion whose payload is the concatenation of the
fragment payloads ordered by fragment index ascending.  The completion-count
part holds, but `MsgStage::merge` iterates the `pieces` HashMap in its
unspecified iteration order (realized here as insertion order), so feeding
the two fragments of message 1 in reverse index order produces payload
[1, 0] instead of the index-ascending [0, 1] that the spec, and the
repository's own test `is_ready_double_complete`, require.  This theorem
evaluates the embedded code at that failing input, at the queue level and at
the stage level mirrored from the repository test. -/
theorem claim_C1_merge_order_bug :
    runOutputs (MsgQueue.new none) [⟨1, 2, 2, [1]⟩, ⟨1, 1, 2, [0]⟩] = [⟨1, [1, 0]⟩]
    ∧ ((MsgStage.new ⟨0, 2, 2, [1]⟩).add_chunk ⟨0, 1, 2, [0]⟩).1.merge = ⟨0, [1, 0]⟩
    ∧ (⟨1, [1, 0]⟩ : CompleteMessage) ≠ ⟨1, [0, 1]⟩ := by
  decide

/-- C2: the claim states every fragment queued by `Sender::enqueue` declares
`total` equal to the number of slices actually produced, in particular when
the payload length is an exact positive multiple of the slice size.  The
code computes `total = len / slice_size + 1`, which on exact multiples is one
more than the slice count: with `datagram_length = 33` (slice size 1) and the
one-byte payload [7], one slice is produced but the single fragment declares
`total = 2`, so the message can never reassemble.  This theorem evaluates the
embedded code at that failing input. -/
theorem claim_C2_total_off_by_one :
    Sender.enqueueFragments 33 1 1 [7] = [⟨1, 1, 2, [7]⟩]
    ∧ (chunksOf (33 - MSG_PADDING) [7]).length = 1 := by
  decide

/-- C3 counterexample: after inserting fragment (id 5, 1 of 3) and then the
single-piece fragment (id 5, 1 of 1), the fast path publishes id 5 but
`mark_published` removes only strictly smaller ids, so an open buffer with
id 5 = last_released remains: the claim that no buffer has id less than or
equal to last_released fails. -/
theorem claim_C3_counterexample :
    (runQueue (MsgQueue.new none) [⟨5, 1, 3, [1]⟩, ⟨5, 1, 1, [2]⟩]).last_released = some 5
    ∧ lookupKey 5 (runQueue (MsgQueue.new none) [⟨5, 1, 3, [1]⟩, ⟨5, 1, 1, [2]⟩]).stages =
        some (MsgStage.new ⟨5, 1, 3, [1]⟩) := by
  decide

/-- C3 amended: after every insert_chunk call on a queue created by new, if
last_released = some L then the open-buffer mapping contains no entry whose
MessageId is strictly less than L (an entry equal to L can remain when a
single-fragment publication hits an id that already has an open buffer). -/
theorem claim_C3_amended (mx : Option Nat) (cs : List MsgChunk) (L : Nat)
    (h : (runQueue (MsgQueue.new mx) cs).last_released = some L) :
    ∀ p ∈ (runQueue (MsgQueue.new mx) cs).stages, L ≤ p.1 :=
  fun p hp => (qinv_runQueue cs (qinv_new mx)).ge_last L p h hp

theorem claim_C3_amended_witness :
    (runQueue (MsgQueue.new none) [⟨5, 1, 3, [1]⟩, ⟨5, 1, 1, [2]⟩]).last_released = some 5
    ∧ (5, MsgStage.new ⟨5, 1, 3, [1]⟩) ∈
        (runQueue (MsgQueue.new none) [⟨5, 1, 3, [1]⟩, ⟨5, 1, 1, [2]⟩]).stages
    ∧ 5 ≤ (5, MsgStage.new ⟨5, 1, 3, [1]⟩).1 :=
  ⟨by decide, by decide,
    claim_C3_amended none [⟨5, 1, 3, [1]⟩, ⟨5, 1, 1, [2]⟩] 5 (by decide)
      (5, MsgStage.new ⟨5, 1, 3, [1]⟩) (by decide)⟩

/-- C4: over any sequence of insert_chunk calls on a single queue created by
new, the MessageIds of the completed messages returned, taken in call order,
form a strictly increasing sequence. -/
theorem claim_C4_strictly_increasing (mx : Option Nat) (cs : List MsgChunk) :
    ((runOutputs (MsgQueue.new mx) cs).map (fun m => m.id)).Pairwise (· < ·) :=
  List.Pairwise.map _ (fun _ _ hab => hab) (runOutputs_mono cs (qinv_new mx)).1

/-- C5 counterexample: the claim states a stale insert leaves the entire
queue state unchanged, but `prune` runs before the staleness check.  On a
queue with capacity bound 0 holding one open buffer (cur_size 1) and
last_released = 2, inserting the stale fragment id 1 returns none yet evicts
the open buffer: the state changes. -/
theorem claim_C5_counterexample :
    (runQueue (MsgQueue.new (some 0)) [⟨2, 1, 1, [5]⟩, ⟨3, 1, 2, [9]⟩]).last_released = some 2
    ∧ (⟨1, 1, 2, [7]⟩ : MsgChunk).id ≤ 2
    ∧ ((runQueue (MsgQueue.new (some 0)) [⟨2, 1, 1, [5]⟩, ⟨3, 1, 2, [9]⟩]).insert_chunk
        ⟨1, 1, 2, [7]⟩).1 = none
    ∧ ((runQueue (MsgQueue.new (some 0)) [⟨2, 1, 1, [5]⟩, ⟨3, 1, 2, [9]⟩]).insert_chunk
        ⟨1, 1, 2, [7]⟩).2 ≠
        runQueue (MsgQueue.new (some 0)) [⟨2, 1, 1, [5]⟩, ⟨3, 1, 2, [9]⟩] := by
  decide

/-- C5 amended: for every queue state with last_released = some L and every
fragment with id at most L, insert_chunk returns none and the post-state
equals the state after the unconditional capacity-pruning step alone; in
particular, when no capacity bound is configured the state is exactly
unchanged and no buffer is created, mutated, or removed. -/
theorem claim_C5_amended (q : MsgQueue) (c : MsgChunk) (L : Nat)
    (h1 : q.last_released = some L) (h2 : c.id ≤ L) :
    q.insert_chunk c = (none, q.prune)
    ∧ (q.max_size = none → q.insert_chunk c = (none, q)) := by
  refine ⟨insert_chunk_stale h1 h2, fun hm => ?_⟩
  rw [insert_chunk_stale h1 h2, prune_of_none hm]

theorem claim_C5_amended_witness :
    (MsgQueue.mk (some 5) [] none 0).last_released = some 5
    ∧ (⟨3, 1, 2, [7]⟩ : MsgChunk).id ≤ 5
    ∧ (MsgQueue.mk (some 5) [] none 0).insert_chunk ⟨3, 1, 2, [7]⟩ =
        (none, MsgQueue.mk (some 5) [] none 0) :=
  ⟨by decide, by decide,
    (claim_C5_amended (MsgQueue.mk (some 5) [] none 0) ⟨3, 1, 2, [7]⟩ 5
      (by decide) (by decide)).2 rfl⟩

/-- C6: on every queue reachable from new with a configured capacity bound B,
insert_chunk begins by running prune on the current state regardless of the
incoming fragment, and prune coincides with the specification's loop that
repeatedly evicts the open buffer with the smallest MessageId (removing it
from the mapping and subtracting its size) until cur_size is at most B or no
buffers remain; afterwards cur_size is at most B or the mapping is empty. -/
theorem claim_C6_prune_oldest_first (B : Nat) (cs : List MsgChunk) (c : MsgChunk) :
    (runQueue (MsgQueue.new (some B)) cs).insert_chunk c =
        (runQueue (MsgQueue.new (some B)) cs).prune.insertSteps c
    ∧ (runQueue (MsgQueue.new (some B)) cs).prune =
        pruneSpec B (runQueue (MsgQueue.new (some B)) cs)
    ∧ ((runQueue (MsgQueue.new (some B)) cs).prune.cur_size ≤ B
        ∨ (runQueue (MsgQueue.new (some B)) cs).prune.stages = []) := by
  have hmax : (runQueue (MsgQueue.new (some B)) cs).max_size = some B := by
    rw [runQueue_max]
    rfl
  exact ⟨rfl, prune_eq_pruneSpec hmax (qinv_runQueue cs (qinv_new (some B))).nodup,
    prune_post hmax⟩

/-- C7: after every insert_chunk call on a queue created by new, cur_size
equals the sum of the size fields of all partial-message buffers currently in
the mapping. -/
theorem claim_C7_size_invariant (mx : Option Nat) (cs : List MsgChunk) :
    (runQueue (MsgQueue.new mx) cs).cur_size =
      sizeSum (runQueue (MsgQueue.new mx) cs).stages :=
  (qinv_runQueue cs (qinv_new mx)).size_ok

/-- C8: for every fragment with declared total 1 whose id is newer than
last_released (or last_released unset), insert_chunk returns the completed
message built from the fragment's payload, records the id as last_released,
and the surviving mapping is exactly the pruned mapping with every buffer of
strictly smaller id removed, with cur_size decreased by the removed sizes. -/
theorem claim_C8_fast_path (q : MsgQueue) (c : MsgChunk)
    (h1 : c.total = 1)
    (h2 : q.last_released = none ∨ ∃ L, q.last_released = some L ∧ L < c.id) :
    (q.insert_chunk c).1 = some ⟨c.id, c.payload⟩
    ∧ (q.insert_chunk c).2.last_released = some c.id
    ∧ (q.insert_chunk c).2.stages =
        q.prune.stages.filter (fun p => !(p.1 < c.id : Bool))
    ∧ (q.insert_chunk c).2.cur_size =
        q.prune.cur_size -
          sizeSum (q.prune.stages.filter (fun p => (p.1 < c.id : Bool))) := by
  have hst : staleCheck q.prune.last_released c.id = false := by
    rw [prune_last]
    rcases h2 with h | ⟨L, hL, hlt⟩
    · rw [h]
      rfl
    · rw [hL, staleCheck_some]
      exact decide_eq_false (by omega)
  have heq : q.insert_chunk c = (some ⟨c.id, c.payload⟩, q.prune.mark_published c.id) := by
    rw [MsgQueue.insert_chunk]
    simp only [MsgQueue.insertSteps]
    rw [if_neg (by rw [hst]; simp), if_pos h1]
  rw [heq]
  exact ⟨rfl, rfl, rfl, rfl⟩

theorem claim_C8_witness :
    (⟨2, 1, 1, [7]⟩ : MsgChunk).total = 1
    ∧ (runQueue (MsgQueue.new none) [⟨1, 1, 2, [5]⟩]).last_released = none
    ∧ (((runQueue (MsgQueue.new none) [⟨1, 1, 2, [5]⟩]).insert_chunk ⟨2, 1, 1, [7]⟩).1 =
          some ⟨2, [7]⟩
        ∧ ((runQueue (MsgQueue.new none) [⟨1, 1, 2, [5]⟩]).insert_chunk
            ⟨2, 1, 1, [7]⟩).2.last_released = some 2
        ∧ ((runQueue (MsgQueue.new none) [⟨1, 1, 2, [5]⟩]).insert_chunk
            ⟨2, 1, 1, [7]⟩).2.stages =
            (runQueue (MsgQueue.new none) [⟨1, 1, 2, [5]⟩]).prune.stages.filter
              (fun p => !(p.1 < 2 : Bool))
        ∧ ((runQueue (MsgQueue.new none) [⟨1, 1, 2, [5]⟩]).insert_chunk
            ⟨2, 1, 1, [7]⟩).2.cur_size =
            (runQueue (MsgQueue.new none) [⟨1, 1, 2, [5]⟩]).prune.cur_size -
              sizeSum ((runQueue (MsgQueue.new none) [⟨1, 1, 2, [5]⟩]).prune.stages.filter
                (fun p => (p.1 < 2 : Bool)))) :=
  ⟨by decide, by decide,
    claim_C8_fast_path (runQueue (MsgQueue.new none) [⟨1, 1, 2, [5]⟩]) ⟨2, 1, 1, [7]⟩
      (by decide) (Or.inl (by decide))⟩

/-- C9 counterexample: the claim states that re-inserting a fragment with the
same (id, index) as one already held by an open buffer never changes cur_size
and never by itself produces a completion.  On a queue with capacity bound 1
holding the open buffer for id 2 (which stores index 1 and has cur_size 2),
inserting the fragment (id 2, piece 1 of 1) first triggers prune, which
evicts the buffer and drops cur_size to 0, and then takes the single-piece
fast path and returns a completion. -/
theorem claim_C9_counterexample :
    lookupKey 2 (runQueue (MsgQueue.new (some 1)) [⟨2, 1, 2, [6, 6]⟩]).stages =
        some (MsgStage.new ⟨2, 1, 2, [6, 6]⟩)
    ∧ (lookupKey 1 (MsgStage.new ⟨2, 1, 2, [6, 6]⟩).pieces).isSome = true
    ∧ ((runQueue (MsgQueue.new (some 1)) [⟨2, 1, 2, [6, 6]⟩]).insert_chunk
        ⟨2, 1, 1, [3]⟩).1 = some ⟨2, [3]⟩
    ∧ ((runQueue (MsgQueue.new (some 1)) [⟨2, 1, 2, [6, 6]⟩]).insert_chunk
        ⟨2, 1, 1, [3]⟩).2.cur_size ≠
        (runQueue (MsgQueue.new (some 1)) [⟨2, 1, 2, [6, 6]⟩]).cur_size := by
  decide

/-- C9 amended: adding a fragment whose index is already present in a buffer
stores nothing, returns 0 added bytes, and leaves the buffer unchanged;
consequently, on a queue with no capacity bound, re-inserting a fragment
whose declared total is not 1 and whose (id, index) matches a piece held by
the (necessarily not-ready, uniquely-keyed) open buffer for its id returns
none and leaves the queue state exactly unchanged.  The extra hypotheses
(no capacity bound, total not 1, buffer not ready, unique keys) hold for the
re-insertion of any fragment a reachable unbounded queue actually stores. -/
theorem claim_C9_amended (q : MsgQueue) (c : MsgChunk) (s : MsgStage)
    (hmax : q.max_size = none) (hnd : (keysOf q.stages).Nodup)
    (hlk : lookupKey c.id q.stages = some s)
    (hdup : (lookupKey c.index s.pieces).isSome = true)
    (ht : ¬ c.total = 1) (hnr : s.is_ready = false) :
    s.add_chunk c = (s, 0) ∧ q.insert_chunk c = (none, q) := by
  obtain ⟨v, hv⟩ := Option.isSome_iff_exists.mp hdup
  have hadd : s.add_chunk c = (s, 0) := by
    rw [MsgStage.add_chunk, hv]
  refine ⟨hadd, ?_⟩
  rw [MsgQueue.insert_chunk, prune_of_none hmax]
  simp only [MsgQueue.insertSteps]
  by_cases hst : staleCheck q.last_released c.id = true
  · rw [if_pos hst]
  · rw [if_neg hst, if_neg ht, hlk]
    show (if (s.add_chunk c).1.is_ready = true then
        (some (s.add_chunk c).1.merge,
          MsgQueue.mark_published
            { q with stages := eraseKey c.id (setKey c.id (s.add_chunk c).1 q.stages),
                     cur_size := q.cur_size + (s.add_chunk c).2 - (s.add_chunk c).1.size }
            c.id)
      else
        (none, { q with stages := setKey c.id (s.add_chunk c).1 q.stages,
                        cur_size := q.cur_size + (s.add_chunk c).2 })) = (none, q)
    simp only [hadd]
    rw [if_neg (by rw [hnr]; simp)]
    rw [setKey_eq_self hnd hlk, Nat.add_zero]

theorem claim_C9_amended_witness :
    (runQueue (MsgQueue.new none) [⟨2, 1, 2, [6]⟩]).max_size = none
    ∧ (keysOf (runQueue (MsgQueue.new none) [⟨2, 1, 2, [6]⟩]).stages).Nodup
    ∧ lookupKey 2 (runQueue (MsgQueue.new none) [⟨2, 1, 2, [6]⟩]).stages =
        some (MsgStage.new ⟨2, 1, 2, [6]⟩)
    ∧ (lookupKey 1 (MsgStage.new ⟨2, 1, 2, [6]⟩).pieces).isSome = true
    ∧ ¬ (⟨2, 1, 2, [6]⟩ : MsgChunk).total = 1
    ∧ (MsgStage.new ⟨2, 1, 2, [6]⟩).is_ready = false
    ∧ ((MsgStage.new ⟨2, 1, 2, [6]⟩).add_chunk ⟨2, 1, 2, [6]⟩ =
          (MsgStage.new ⟨2, 1, 2, [6]⟩, 0)
        ∧ (runQueue (MsgQueue.new none) [⟨2, 1, 2, [6]⟩]).insert_chunk ⟨2, 1, 2, [6]⟩ =
          (none, runQueue (MsgQueue.new none) [⟨2, 1, 2, [6]⟩])) :=
  ⟨by decide, by decide, by decide, by decide, by decide, by decide,
    claim_C9_amended (runQueue (MsgQueue.new none) [⟨2, 1, 2, [6]⟩]) ⟨2, 1, 2, [6]⟩
      (MsgStage.new ⟨2, 1, 2, [6]⟩) (by decide) (by decide) (by decide) (by decide)
      (by decide) (by decide)⟩

/-- C10: the per-peer queue the Receiver creates (the `MsgQueue::new()` call
in poll supplies no capacity bound, and from_socket takes no capacity
parameter) is unbounded: its max_size is absent and stays absent over any
insertion sequence, pruning is the identity on every reachable state, and the
aggregate buffered size grows past any bound under a suitable fragment
stream. -/
theorem claim_C10_receiver_unbounded :
    receiverPeerQueue.max_size = none
    ∧ (∀ cs : List MsgChunk,
        (runQueue receiverPeerQueue cs).prune = runQueue receiverPeerQueue cs)
    ∧ (∀ n : Nat, n < (runQueue receiverPeerQueue (idsFrom 1 (n + 1))).cur_size) := by
  refine ⟨rfl, fun cs => ?_, fun n => ?_⟩
  · refine prune_of_none ?_
    rw [runQueue_max]
    rfl
  · have h := runQueue_growth (n + 1) 1 (q := receiverPeerQueue) rfl rfl
      (fun x hx => absurd hx (by simp [receiverPeerQueue, MsgQueue.new, keysOf]))
    rw [h]
    show n < 0 + (n + 1)
    omega
